import Mathlib

/-!
# Duck chess engine: the bitboard game state

A shallow embedding of `DuckChess_Game/engine.cpp`.

* `Bitboard` is `uint64_t`; a value is a natural number below `2 ^ 64`.
* The three bit macros `set_bit`, `get_bit`, `pop_bit` all compute
  `1ULL << sq`.  In C++ that shift is undefined when `sq` is negative or at
  least the width of `unsigned long long`; the embedding returns `none` there,
  and `some` of the 64-bit result otherwise.
* `GameState` holds the four bitboards; its member functions mutate the object
  in place, which the embedding renders as functions returning the new state.
-/

/-- The modulus of `uint64_t` arithmetic. -/
def U64 : Nat := 2 ^ 64

/-- The C++ typedef `Bitboard` (`uint64_t`), carried as a natural number. -/
abbrev Bitboard := Nat

/-- The expression `1ULL << (sq)` with `sq` of type `int`: undefined outside
`0 ≤ sq < 64`, otherwise the shifted value reduced to 64 bits. -/
def shl1 (sq : Int) : Option Bitboard :=
  if 0 ≤ sq ∧ sq < 64 then some ((1 <<< sq.toNat) % U64) else none

/-- The macro `set_bit(bb, sq)`, that is `(bb) |= (1ULL << (sq))`: the new
value of `bb`. -/
def set_bit (bb : Bitboard) (sq : Int) : Option Bitboard :=
  (shl1 sq).map (fun m => bb ||| m)

/-- The macro `get_bit(bb, sq)`, that is `(bb) & (1ULL << (sq))`. -/
def get_bit (bb : Bitboard) (sq : Int) : Option Bitboard :=
  (shl1 sq).map (fun m => bb &&& m)

/-- The macro `pop_bit(bb, sq)`, that is `(bb) &= ~(1ULL << (sq))`: the new
value of `bb`; `~` is the 64-bit complement. -/
def pop_bit (bb : Bitboard) (sq : Int) : Option Bitboard :=
  (shl1 sq).map (fun m => bb &&& (U64 - 1 - m))

/-- The class `GameState`: four public bitboards. -/
structure GameState where
  w_rooks : Bitboard
  w_king : Bitboard
  b_king : Bitboard
  duck : Bitboard
  deriving DecidableEq, Repr

namespace GameState

/-- The zero-argument constructor `GameState::GameState()`. -/
def ctor : GameState :=
  { w_rooks := 0, w_king := 0, b_king := 0, duck := 0 }

/-- The member function `init_test_board`: four `set_bit` statements in
sequence. -/
def init_test_board (g : GameState) : Option GameState := do
  let r ← set_bit g.w_rooks 0
  let k ← set_bit g.w_king 4
  let b ← set_bit g.b_king 60
  let d ← set_bit g.duck 27
  pure { w_rooks := r, w_king := k, b_king := b, duck := d }

/-- The member function `move_duck(int square)`: `duck = 0;` and then
`set_bit(duck, square);`. -/
def move_duck (g : GameState) (square : Int) : Option GameState := do
  let g0 : GameState := { g with duck := 0 }
  let d ← set_bit g0.duck square
  pure { g0 with duck := d }

/-- Every field is a 64-bit value. -/
def WF (g : GameState) : Prop :=
  g.w_rooks < U64 ∧ g.w_king < U64 ∧ g.b_king < U64 ∧ g.duck < U64

instance (g : GameState) : Decidable g.WF := by
  unfold WF; infer_instance

end GameState

/-- The four public data members of `GameState`, each bound read-write by
`def_readwrite` in the module definition. -/
inductive Member where
  | w_rooks : Member
  | w_king : Member
  | b_king : Member
  | duck : Member
  deriving DecidableEq, Repr

/-- Reading a public member: the expression `g.f`. -/
def GameState.read (g : GameState) : Member → Bitboard
  | .w_rooks => g.w_rooks
  | .w_king => g.w_king
  | .b_king => g.b_king
  | .duck => g.duck

/-- Writing a public member: the assignment `g.f = v`, with `v` a
`Bitboard`. -/
def GameState.write (g : GameState) (f : Member) (v : Bitboard) : GameState :=
  match f with
  | .w_rooks => { g with w_rooks := v }
  | .w_king => { g with w_king := v }
  | .b_king => { g with b_king := v }
  | .duck => { g with duck := v }

/-- The number of set bits among the 64 bit positions of a bitboard. -/
def popcount (bb : Bitboard) : Nat :=
  (List.range 64).countP (fun i => bb.testBit i)

/-- One call a client can make on a `GameState` through its member
functions. -/
inductive Call where
  | init_test_board : Call
  | move_duck (square : Int) : Call
  deriving DecidableEq, Repr

/-- The argument of the call, if any, is a square index in `[0, 63]`. -/
def Call.valid : Call → Bool
  | .init_test_board => true
  | .move_duck s => decide (0 ≤ s) && decide (s ≤ 63)

/-- Perform one call. -/
def Call.apply (g : GameState) : Call → Option GameState
  | .init_test_board => g.init_test_board
  | .move_duck s => g.move_duck s

/-- Perform a sequence of calls, first to last. -/
def runCalls (g : GameState) : List Call → Option GameState
  | [] => some g
  | c :: cs => (c.apply g).bind (fun g1 => runCalls g1 cs)

/-- No call of the sequence is `init_test_board`. -/
def noInit : List Call → Bool
  | [] => true
  | .init_test_board :: _ => false
  | .move_duck _ :: cs => noInit cs

/-- No call of the sequence is `move_duck`. -/
def noMove : List Call → Bool
  | [] => true
  | .init_test_board :: cs => noMove cs
  | .move_duck _ :: _ => false

/-- The last `move_duck` call of the sequence has a square other than 27 and
some `init_test_board` call comes after it. -/
def lastMoveOverlaid : List Call → Bool
  | [] => false
  | .init_test_board :: cs => lastMoveOverlaid cs
  | .move_duck s :: cs =>
    if noMove cs then decide (s ≠ 27) && !noInit cs else lastMoveOverlaid cs

/-- The shape the two mutators keep: each king bitboard is empty or its one
test-board bit, and the duck bitboard is empty, one bit, or one bit together
with bit 27. -/
def TestShape (g : GameState) : Prop :=
  (g.w_king = 0 ∨ g.w_king = 2 ^ 4) ∧ (g.b_king = 0 ∨ g.b_king = 2 ^ 60) ∧
    (g.duck = 0 ∨ ∃ s : Nat, s < 64 ∧ (g.duck = 2 ^ s ∨ g.duck = 2 ^ s ||| 2 ^ 27))

/-! ## Facts about the shift and the macros -/

theorem shl1_of_valid (s : Int) (h0 : 0 ≤ s) (h63 : s ≤ 63) :
    shl1 s = some (2 ^ s.toNat) := by
  have hlt : s.toNat < 64 := by omega
  have hpow : 2 ^ s.toNat < 2 ^ 64 := Nat.pow_lt_pow_right (by norm_num) hlt
  have hs : s < 64 := by omega
  simp only [shl1, h0, hs, and_self, if_true, Nat.shiftLeft_eq, one_mul, U64]
  rw [Nat.mod_eq_of_lt hpow]

theorem set_bit_of_valid (bb : Bitboard) (s : Int) (h0 : 0 ≤ s) (h63 : s ≤ 63) :
    set_bit bb s = some (bb ||| 2 ^ s.toNat) := by
  simp [set_bit, shl1_of_valid s h0 h63]

theorem move_duck_of_valid (g : GameState) (s : Int) (h0 : 0 ≤ s) (h63 : s ≤ 63) :
    g.move_duck s = some { g with duck := 2 ^ s.toNat } := by
  simp [GameState.move_duck, set_bit_of_valid _ s h0 h63]

theorem init_test_board_eq (g : GameState) :
    g.init_test_board =
      some { w_rooks := g.w_rooks ||| 2 ^ 0, w_king := g.w_king ||| 2 ^ 4,
             b_king := g.b_king ||| 2 ^ 60, duck := g.duck ||| 2 ^ 27 } := by
  simp [GameState.init_test_board, set_bit_of_valid]

theorem testBit_two_pow_iff (s i : Nat) : (2 ^ s).testBit i = true ↔ i = s := by
  rw [Nat.testBit_two_pow]
  simp [eq_comm]

theorem popcount_two_pow (s : Nat) (hs : s < 64) : popcount (2 ^ s) = 1 := by
  interval_cases s <;> decide

theorem or_two_pow_lt (bb k : Nat) (hbb : bb < U64) (hk : k < 64) : bb ||| 2 ^ k < U64 :=
  Nat.or_lt_two_pow hbb (Nat.pow_lt_pow_right (by norm_num) hk)

/-- The initialiser keeps every field within 64 bits. -/
theorem init_test_board_WF (g g1 : GameState) (hg : g.WF)
    (h : g.init_test_board = some g1) : g1.WF := by
  rw [init_test_board_eq] at h
  cases h
  obtain ⟨h1, h2, h3, h4⟩ := hg
  exact ⟨or_two_pow_lt _ _ h1 (by norm_num), or_two_pow_lt _ _ h2 (by norm_num),
    or_two_pow_lt _ _ h3 (by norm_num), or_two_pow_lt _ _ h4 (by norm_num)⟩

/-- The duck move keeps every field within 64 bits, whatever the square. -/
theorem move_duck_WF (g g1 : GameState) (s : Int) (hg : g.WF)
    (h : g.move_duck s = some g1) : g1.WF := by
  obtain ⟨h1, h2, h3, _⟩ := hg
  by_cases hs : 0 ≤ s ∧ s < 64
  · have hv := move_duck_of_valid g s hs.1 (by omega)
    rw [hv] at h
    cases h
    exact ⟨h1, h2, h3, Nat.pow_lt_pow_right (by norm_num) (by omega)⟩
  · simp [GameState.move_duck, set_bit, shl1, hs] at h

theorem testBit_or_two_pow_self (bb k : Nat) : (bb ||| 2 ^ k).testBit k = true := by
  simp [Nat.testBit_or, Nat.testBit_two_pow_self]

/-! ## The claims -/

/-- C1: for every game state, whatever its duck bitboard, and every square `s`
with `0 ≤ s ≤ 63`, `move_duck s` returns a state whose duck bitboard is exactly
`2 ^ s`, a 64-bit value with one bit set, namely bit `s`. -/
theorem move_duck_sets_single_bit (g : GameState) (s : Int) (h0 : 0 ≤ s) (h63 : s ≤ 63) :
    ∃ g1, g.move_duck s = some g1 ∧ g1.duck = 2 ^ s.toNat ∧ g1.duck < U64 ∧
      popcount g1.duck = 1 ∧ ∀ i : Nat, g1.duck.testBit i = true ↔ i = s.toNat := by
  have hlt : s.toNat < 64 := by omega
  refine ⟨_, move_duck_of_valid g s h0 h63, rfl, ?_, popcount_two_pow _ hlt,
    fun i => testBit_two_pow_iff _ i⟩
  exact Nat.pow_lt_pow_right (by norm_num) hlt

theorem move_duck_sets_single_bit_witness :
    (0 : Int) ≤ 35 ∧ (35 : Int) ≤ 63 ∧ ∃ g1, (GameState.mk 129 16 (2 ^ 60) 0xFFFFFFFFFFFFFFFF).move_duck 35 = some g1 ∧
      g1.duck = 2 ^ (35 : Int).toNat ∧ g1.duck < U64 ∧
      popcount g1.duck = 1 ∧ ∀ i : Nat, g1.duck.testBit i = true ↔ i = (35 : Int).toNat :=
  ⟨by decide, by decide,
    move_duck_sets_single_bit ⟨129, 16, 2 ^ 60, 0xFFFFFFFFFFFFFFFF⟩ 35 (by decide) (by decide)⟩

/-- C2: for every game state and every square `s` with `0 ≤ s ≤ 63`,
`move_duck s` returns a state whose `w_rooks`, `w_king` and `b_king` are those
of the state it was called on. -/
theorem move_duck_frame (g : GameState) (s : Int) (h0 : 0 ≤ s) (h63 : s ≤ 63) :
    ∃ g1, g.move_duck s = some g1 ∧
      g1.w_rooks = g.w_rooks ∧ g1.w_king = g.w_king ∧ g1.b_king = g.b_king :=
  ⟨_, move_duck_of_valid g s h0 h63, rfl, rfl, rfl⟩

theorem move_duck_frame_witness :
    (0 : Int) ≤ 63 ∧ (63 : Int) ≤ 63 ∧ ∃ g1, (GameState.mk 129 16 (2 ^ 60) 7).move_duck 63 = some g1 ∧
      g1.w_rooks = (GameState.mk 129 16 (2 ^ 60) 7).w_rooks ∧
      g1.w_king = (GameState.mk 129 16 (2 ^ 60) 7).w_king ∧
      g1.b_king = (GameState.mk 129 16 (2 ^ 60) 7).b_king :=
  ⟨by decide, by decide, move_duck_frame ⟨129, 16, 2 ^ 60, 7⟩ 63 (by decide) (by decide)⟩

/-- C3: the state built by the zero-argument constructor has all four
bitboards equal to zero. -/
theorem ctor_all_zero :
    GameState.ctor.w_rooks = 0 ∧ GameState.ctor.w_king = 0 ∧
      GameState.ctor.b_king = 0 ∧ GameState.ctor.duck = 0 :=
  ⟨rfl, rfl, rfl, rfl⟩

/-- C4: `init_test_board` is an overlay: on every game state it returns a state
in which each field is the old field OR-ed with its fixed bit (bits 0, 4, 60
and 27); every bit set before is still set, and the four fixed bits are set. -/
theorem init_test_board_overlay (g : GameState) :
    ∃ g1, g.init_test_board = some g1 ∧
      g1.w_rooks = g.w_rooks ||| 2 ^ 0 ∧ g1.w_king = g.w_king ||| 2 ^ 4 ∧
      g1.b_king = g.b_king ||| 2 ^ 60 ∧ g1.duck = g.duck ||| 2 ^ 27 ∧
      (∀ i : Nat, g.w_rooks.testBit i = true → g1.w_rooks.testBit i = true) ∧
      (∀ i : Nat, g.w_king.testBit i = true → g1.w_king.testBit i = true) ∧
      (∀ i : Nat, g.b_king.testBit i = true → g1.b_king.testBit i = true) ∧
      (∀ i : Nat, g.duck.testBit i = true → g1.duck.testBit i = true) ∧
      g1.w_rooks.testBit 0 = true ∧ g1.w_king.testBit 4 = true ∧
      g1.b_king.testBit 60 = true ∧ g1.duck.testBit 27 = true := by
  refine ⟨_, init_test_board_eq g, rfl, rfl, rfl, rfl, ?_, ?_, ?_, ?_,
    testBit_or_two_pow_self _ _, testBit_or_two_pow_self _ _,
    testBit_or_two_pow_self _ _, testBit_or_two_pow_self _ _⟩ <;>
  · intro i hi
    simp [Nat.testBit_or, hi]

/-- C5: `init_test_board` on a freshly constructed state gives exactly
`w_rooks = 1`, `w_king = 16`, `b_king = 2 ^ 60` and `duck = 2 ^ 27`, each with
the one bit 0, 4, 60, 27 set and no other. -/
theorem init_test_board_on_fresh :
    GameState.ctor.init_test_board =
        some { w_rooks := 1, w_king := 16, b_king := 2 ^ 60, duck := 2 ^ 27 } ∧
      (∀ i : Nat, (1 : Bitboard).testBit i = true ↔ i = 0) ∧
      (∀ i : Nat, (16 : Bitboard).testBit i = true ↔ i = 4) ∧
      (∀ i : Nat, ((2 : Bitboard) ^ 60).testBit i = true ↔ i = 60) ∧
      (∀ i : Nat, ((2 : Bitboard) ^ 27).testBit i = true ↔ i = 27) := by
  refine ⟨?_, fun i => testBit_two_pow_iff 0 i, fun i => testBit_two_pow_iff 4 i,
    fun i => testBit_two_pow_iff 60 i, fun i => testBit_two_pow_iff 27 i⟩
  rw [init_test_board_eq]
  rfl

/-- C6, the claim as stated fails: on the 64-bit state with `w_king = 1`,
`b_king = 1` and `duck = 1`, `init_test_board` returns `w_king = 17`,
`b_king = 2 ^ 60 + 1` and `duck = 2 ^ 27 + 1`, none of which is the single bit
4, 60 or 27; bit 0 is still set in each. -/
theorem init_test_board_keeps_old_bits :
    (GameState.mk 0 1 1 1).WF ∧
      (GameState.mk 0 1 1 1).init_test_board =
        some { w_rooks := 1, w_king := 17, b_king := 2 ^ 60 + 1, duck := 2 ^ 27 + 1 } ∧
      (17 : Bitboard) ≠ 2 ^ 4 ∧ (2 ^ 60 + 1 : Bitboard) ≠ 2 ^ 60 ∧
      (2 ^ 27 + 1 : Bitboard) ≠ 2 ^ 27 ∧
      (17 : Bitboard).testBit 0 = true ∧ (2 ^ 60 + 1 : Bitboard).testBit 0 = true ∧
      (2 ^ 27 + 1 : Bitboard).testBit 0 = true := by
  refine ⟨by decide, ?_, by decide, by decide, by decide, by decide, by decide, by decide⟩
  rw [init_test_board_eq]
  rfl

/-- C6 as amended: on every game state whose `w_king` is `0` or `2 ^ 4`, whose
`b_king` is `0` or `2 ^ 60` and whose `duck` is `0` or `2 ^ 27`,
`init_test_board` returns a state with `w_king = 2 ^ 4`, `b_king = 2 ^ 60` and
`duck = 2 ^ 27`, each with exactly the one bit 4, 60, 27 set. -/
theorem init_test_board_exact_bits (g : GameState)
    (hk : g.w_king = 0 ∨ g.w_king = 2 ^ 4) (hb : g.b_king = 0 ∨ g.b_king = 2 ^ 60)
    (hd : g.duck = 0 ∨ g.duck = 2 ^ 27) :
    ∃ g1, g.init_test_board = some g1 ∧
      g1.w_king = 2 ^ 4 ∧ g1.b_king = 2 ^ 60 ∧ g1.duck = 2 ^ 27 ∧
      (∀ i : Nat, g1.w_king.testBit i = true ↔ i = 4) ∧
      (∀ i : Nat, g1.b_king.testBit i = true ↔ i = 60) ∧
      (∀ i : Nat, g1.duck.testBit i = true ↔ i = 27) := by
  have e1 : g.w_king ||| 2 ^ 4 = 2 ^ 4 := by rcases hk with h | h <;> simp [h]
  have e2 : g.b_king ||| 2 ^ 60 = 2 ^ 60 := by rcases hb with h | h <;> simp [h]
  have e3 : g.duck ||| 2 ^ 27 = 2 ^ 27 := by rcases hd with h | h <;> simp [h]
  refine ⟨_, init_test_board_eq g, e1, e2, e3, ?_, ?_, ?_⟩
  · intro i; show (g.w_king ||| 2 ^ 4).testBit i = true ↔ i = 4
    rw [e1]; exact testBit_two_pow_iff 4 i
  · intro i; show (g.b_king ||| 2 ^ 60).testBit i = true ↔ i = 60
    rw [e2]; exact testBit_two_pow_iff 60 i
  · intro i; show (g.duck ||| 2 ^ 27).testBit i = true ↔ i = 27
    rw [e3]; exact testBit_two_pow_iff 27 i

theorem init_test_board_exact_bits_witness :
    ((GameState.mk 129 0 (2 ^ 60) 0).w_king = 0 ∨ (GameState.mk 129 0 (2 ^ 60) 0).w_king = 2 ^ 4) ∧
    ((GameState.mk 129 0 (2 ^ 60) 0).b_king = 0 ∨
      (GameState.mk 129 0 (2 ^ 60) 0).b_king = 2 ^ 60) ∧
    ((GameState.mk 129 0 (2 ^ 60) 0).duck = 0 ∨ (GameState.mk 129 0 (2 ^ 60) 0).duck = 2 ^ 27) ∧
    ∃ g1, (GameState.mk 129 0 (2 ^ 60) 0).init_test_board = some g1 ∧
      g1.w_king = 2 ^ 4 ∧ g1.b_king = 2 ^ 60 ∧ g1.duck = 2 ^ 27 ∧
      (∀ i : Nat, g1.w_king.testBit i = true ↔ i = 4) ∧
      (∀ i : Nat, g1.b_king.testBit i = true ↔ i = 60) ∧
      (∀ i : Nat, g1.duck.testBit i = true ↔ i = 27) :=
  ⟨Or.inl rfl, Or.inr rfl, Or.inl rfl,
    init_test_board_exact_bits ⟨129, 0, 2 ^ 60, 0⟩ (Or.inl rfl) (Or.inr rfl) (Or.inl rfl)⟩

/-! ### Reachable states -/

theorem popcount_two_pow_or_27_eq (s : Nat) (hs : s < 64) (hne : s ≠ 27) :
    popcount (2 ^ s ||| 2 ^ 27) = 2 := by
  interval_cases s <;> first | decide | exact absurd rfl hne

theorem valid_move_duck (s : Int) (h : (Call.move_duck s).valid = true) :
    0 ≤ s ∧ s ≤ 63 := by
  simpa [Call.valid] using h

theorem TestShape_init (g : GameState) (hg : TestShape g) :
    TestShape { w_rooks := g.w_rooks ||| 2 ^ 0, w_king := g.w_king ||| 2 ^ 4,
                b_king := g.b_king ||| 2 ^ 60, duck := g.duck ||| 2 ^ 27 } := by
  obtain ⟨hk, hb, hd⟩ := hg
  refine ⟨Or.inr ?_, Or.inr ?_, Or.inr ?_⟩
  · rcases hk with h | h <;> simp [h]
  · rcases hb with h | h <;> simp [h]
  · rcases hd with h | ⟨s, hs, h | h⟩
    · exact ⟨27, by norm_num, Or.inl (by simp [h])⟩
    · exact ⟨s, hs, Or.inr (by simp [h])⟩
    · exact ⟨s, hs, Or.inr (by simp [h, Nat.lor_assoc])⟩

theorem TestShape_move (g : GameState) (s : Nat) (hs : s < 64) (hg : TestShape g) :
    TestShape { g with duck := 2 ^ s } :=
  ⟨hg.1, hg.2.1, Or.inr ⟨s, hs, Or.inl rfl⟩⟩

theorem runCalls_TestShape (cs : List Call) :
    ∀ g : GameState, (∀ c ∈ cs, c.valid = true) → TestShape g →
      ∃ g1, runCalls g cs = some g1 ∧ TestShape g1 := by
  induction cs with
  | nil => intro g _ hg; exact ⟨g, rfl, hg⟩
  | cons c cs ih =>
    intro g hv hg
    have hcs : ∀ c1 ∈ cs, c1.valid = true := fun c1 h1 => hv c1 (List.mem_cons_of_mem _ h1)
    cases c with
    | init_test_board =>
      obtain ⟨g1, h1, h2⟩ := ih _ hcs (TestShape_init g hg)
      refine ⟨g1, ?_, h2⟩
      simp only [runCalls, Call.apply, init_test_board_eq, Option.some_bind]
      exact h1
    | move_duck s =>
      obtain ⟨h0, h63⟩ := valid_move_duck s (hv _ (List.mem_cons_self _ _))
      obtain ⟨g1, h1, h2⟩ := ih _ hcs (TestShape_move g s.toNat (by omega) hg)
      refine ⟨g1, ?_, h2⟩
      simp only [runCalls, Call.apply, move_duck_of_valid g s h0 h63, Option.some_bind]
      exact h1

theorem lastMoveOverlaid_of_noMove (cs : List Call) (h : noMove cs = true) :
    lastMoveOverlaid cs = false := by
  induction cs with
  | nil => rfl
  | cons c cs ih =>
    cases c with
    | init_test_board => exact ih (by simpa [noMove] using h)
    | move_duck s => simp [noMove] at h

theorem noMove_append_move (cs : List Call) (s : Int) :
    noMove (cs ++ [Call.move_duck s]) = false := by
  induction cs with
  | nil => rfl
  | cons c cs ih =>
    cases c with
    | init_test_board => simpa [noMove] using ih
    | move_duck t => rfl

/-- A sequence whose last call is `move_duck` is not overlaid. -/
theorem lastMoveOverlaid_append_move (cs : List Call) (s : Int) :
    lastMoveOverlaid (cs ++ [Call.move_duck s]) = false := by
  induction cs with
  | nil => simp [lastMoveOverlaid, noMove, noInit]
  | cons c cs ih =>
    cases c with
    | init_test_board => simpa [lastMoveOverlaid] using ih
    | move_duck t =>
      show lastMoveOverlaid (Call.move_duck t :: (cs ++ [Call.move_duck s])) = false
      rw [lastMoveOverlaid, noMove_append_move]
      simpa using ih

/-- A run of `init_test_board` calls only: the duck bitboard is untouched when
the run is empty and gets bit 27 otherwise. -/
theorem runCalls_noMove (cs : List Call) :
    ∀ g : GameState, noMove cs = true →
      ∃ g1, runCalls g cs = some g1 ∧
        g1.duck = if noInit cs = true then g.duck else g.duck ||| 2 ^ 27 := by
  induction cs with
  | nil => intro g _; exact ⟨g, rfl, by simp [noInit]⟩
  | cons c cs ih =>
    intro g hn
    cases c with
    | init_test_board =>
      obtain ⟨g1, h1, h2⟩ := ih
        { w_rooks := g.w_rooks ||| 2 ^ 0, w_king := g.w_king ||| 2 ^ 4,
          b_king := g.b_king ||| 2 ^ 60, duck := g.duck ||| 2 ^ 27 }
        (by simpa [noMove] using hn)
      refine ⟨g1, ?_, ?_⟩
      · simp only [runCalls, Call.apply, init_test_board_eq, Option.some_bind]
        exact h1
      · rw [h2]
        have hfix : (g.duck ||| 2 ^ 27) ||| 2 ^ 27 = g.duck ||| 2 ^ 27 := by
          rw [Nat.lor_assoc, Nat.or_self]
        by_cases hi : noInit cs = true
        · simp [hi, noInit]
        · simp only [hi, noInit, if_false, hfix]
          simp
    | move_duck s => simp [noMove] at hn

/-- A run holding a `move_duck` call: the duck bitboard ends with two bits when
the last `move_duck` is overlaid and with one bit otherwise, whatever the state
the run starts from. -/
theorem runCalls_with_move (cs : List Call) :
    ∀ g g1 : GameState, (∀ c ∈ cs, c.valid = true) → noMove cs = false →
      runCalls g cs = some g1 →
      popcount g1.duck = if lastMoveOverlaid cs = true then 2 else 1 := by
  induction cs with
  | nil => intro g g1 _ hn _; simp [noMove] at hn
  | cons c cs ih =>
    intro g g1 hv hn h
    have hcs : ∀ c1 ∈ cs, c1.valid = true := fun c1 h1 => hv c1 (List.mem_cons_of_mem _ h1)
    cases c with
    | init_test_board =>
      simp only [runCalls, Call.apply, init_test_board_eq, Option.some_bind] at h
      have hn1 : noMove cs = false := by simpa [noMove] using hn
      simpa [lastMoveOverlaid] using ih _ g1 hcs hn1 h
    | move_duck s =>
      obtain ⟨h0, h63⟩ := valid_move_duck s (hv _ (List.mem_cons_self _ _))
      have hlt : s.toNat < 64 := by omega
      simp only [runCalls, Call.apply, move_duck_of_valid g s h0 h63, Option.some_bind] at h
      by_cases hm : noMove cs = true
      · obtain ⟨g2, h1, h2⟩ := runCalls_noMove cs { g with duck := 2 ^ s.toNat } hm
        rw [h1] at h
        cases h
        rw [h2]
        by_cases hi : noInit cs = true
        · simp [lastMoveOverlaid, hm, hi, popcount_two_pow s.toNat hlt]
        · by_cases h27 : s = 27
          · subst h27
            simp only [lastMoveOverlaid, hm, hi, if_true, if_false]
            decide
          · have hne : s.toNat ≠ 27 := by omega
            have hov : lastMoveOverlaid (Call.move_duck s :: cs) = true := by
              simp [lastMoveOverlaid, hm, hi, h27]
            rw [if_neg hi, hov, if_pos rfl]
            exact popcount_two_pow_or_27_eq s.toNat hlt hne
      · have hm1 : noMove cs = false := by simpa using hm
        simpa [lastMoveOverlaid, hm1] using ih _ g1 hcs hm1 h

/-- C7, the claim as stated fails: from a freshly constructed state the two
valid calls `move_duck 5` and then `init_test_board` reach a state whose duck
bitboard is `2 ^ 5 + 2 ^ 27`, with the two bits 5 and 27 set. -/
theorem reachable_duck_with_two_bits :
    (∀ c ∈ [Call.move_duck 5, Call.init_test_board], c.valid = true) ∧
      runCalls GameState.ctor [Call.move_duck 5, Call.init_test_board] =
        some { w_rooks := 1, w_king := 16, b_king := 2 ^ 60, duck := 2 ^ 5 + 2 ^ 27 } ∧
      (2 ^ 5 + 2 ^ 27 : Bitboard).testBit 5 = true ∧
      (2 ^ 5 + 2 ^ 27 : Bitboard).testBit 27 = true ∧
      popcount (2 ^ 5 + 2 ^ 27) = 2 ∧ ¬ popcount (2 ^ 5 + 2 ^ 27) ≤ 1 := by
  refine ⟨by decide, ?_, by decide, by decide, by decide, by decide⟩
  simp only [runCalls, Call.apply, move_duck_of_valid _ 5 (by decide) (by decide),
    init_test_board_eq, Option.some_bind]
  rfl

/-- C7 as amended: every finite sequence of `init_test_board` and
`move_duck s` calls with `s` in `[0, 63]`, run from a freshly constructed state,
reaches a state in which `w_king` and `b_king` each have at most one bit set;
`duck` has at most one bit set unless the last `move_duck` call of the sequence
has a square other than 27 and is followed by an `init_test_board` call, and in
that one case `duck` has exactly two bits set.  In particular `duck` has exactly
one bit set whenever the last call of the sequence is `move_duck`. -/
theorem reachable_bit_counts (cs : List Call) (hv : ∀ c ∈ cs, c.valid = true) :
    ∃ g, runCalls GameState.ctor cs = some g ∧
      popcount g.w_king ≤ 1 ∧ popcount g.b_king ≤ 1 ∧ popcount g.duck ≤ 2 ∧
      (lastMoveOverlaid cs = false → popcount g.duck ≤ 1) ∧
      (lastMoveOverlaid cs = true → popcount g.duck = 2) ∧
      (∀ (pre : List Call) (s : Int), cs = pre ++ [Call.move_duck s] →
        popcount g.duck = 1) := by
  have h0 : TestShape GameState.ctor := ⟨Or.inl rfl, Or.inl rfl, Or.inl rfl⟩
  obtain ⟨g, hrun, hk, hb, _⟩ := runCalls_TestShape cs GameState.ctor hv h0
  have hone : lastMoveOverlaid cs = false → popcount g.duck ≤ 1 := by
    intro hl
    by_cases hm : noMove cs = true
    · obtain ⟨g1, h1, h2⟩ := runCalls_noMove cs GameState.ctor hm
      rw [h1] at hrun
      cases hrun
      rw [h2]
      by_cases hi : noInit cs = true
      · simp only [hi, if_true]; decide
      · simp only [hi, if_false]; decide
    · have hm1 : noMove cs = false := by simpa using hm
      have hp := runCalls_with_move cs GameState.ctor g hv hm1 hrun
      rw [hp]
      simp [hl]
  have htwo : lastMoveOverlaid cs = true → popcount g.duck = 2 := by
    intro hl
    by_cases hm : noMove cs = true
    · rw [lastMoveOverlaid_of_noMove cs hm] at hl
      exact absurd hl (by decide)
    · have hm1 : noMove cs = false := by simpa using hm
      have hp := runCalls_with_move cs GameState.ctor g hv hm1 hrun
      rw [hp]
      simp [hl]
  refine ⟨g, hrun, ?_, ?_, ?_, hone, htwo, ?_⟩
  · rcases hk with h | h <;> rw [h] <;> decide
  · rcases hb with h | h <;> rw [h] <;> decide
  · cases hl : lastMoveOverlaid cs
    · exact le_trans (hone hl) (by norm_num)
    · exact le_of_eq (htwo hl)
  · intro pre s hcs
    have hp := runCalls_with_move cs GameState.ctor g hv
      (by rw [hcs]; exact noMove_append_move pre s) hrun
    rw [hp, hcs, lastMoveOverlaid_append_move]
    simp

theorem reachable_bit_counts_witness :
    (∀ c ∈ [Call.move_duck 5, Call.init_test_board, Call.move_duck 7], c.valid = true) ∧
    ∃ g, runCalls GameState.ctor
          [Call.move_duck 5, Call.init_test_board, Call.move_duck 7] = some g ∧
      popcount g.w_king ≤ 1 ∧ popcount g.b_king ≤ 1 ∧ popcount g.duck ≤ 2 ∧
      (lastMoveOverlaid [Call.move_duck 5, Call.init_test_board, Call.move_duck 7] = false →
        popcount g.duck ≤ 1) ∧
      (lastMoveOverlaid [Call.move_duck 5, Call.init_test_board, Call.move_duck 7] = true →
        popcount g.duck = 2) ∧
      (∀ (pre : List Call) (s : Int),
        [Call.move_duck 5, Call.init_test_board, Call.move_duck 7] =
          pre ++ [Call.move_duck s] → popcount g.duck = 1) :=
  ⟨by decide,
    reachable_bit_counts [Call.move_duck 5, Call.init_test_board, Call.move_duck 7]
      (by decide)⟩

/-- C8: `move_duck` is idempotent: for every game state and every square `s`
with `0 ≤ s ≤ 63`, a second `move_duck s` returns the very state (all four
fields) the first one returned. -/
theorem move_duck_idempotent (g : GameState) (s : Int) (h0 : 0 ≤ s) (h63 : s ≤ 63) :
    ∃ g1, g.move_duck s = some g1 ∧ g1.move_duck s = some g1 ∧
      (g.move_duck s).bind (fun g2 => g2.move_duck s) = g.move_duck s := by
  refine ⟨_, move_duck_of_valid g s h0 h63, ?_, ?_⟩
  · rw [move_duck_of_valid _ s h0 h63]
  · rw [move_duck_of_valid g s h0 h63, Option.some_bind, move_duck_of_valid _ s h0 h63]

theorem move_duck_idempotent_witness :
    (0 : Int) ≤ 12 ∧ (12 : Int) ≤ 63 ∧
    ∃ g1, (GameState.mk 1 16 (2 ^ 60) (2 ^ 27)).move_duck 12 = some g1 ∧
      g1.move_duck 12 = some g1 ∧
      ((GameState.mk 1 16 (2 ^ 60) (2 ^ 27)).move_duck 12).bind (fun g2 => g2.move_duck 12) =
        (GameState.mk 1 16 (2 ^ 60) (2 ^ 27)).move_duck 12 :=
  ⟨by decide, by decide,
    move_duck_idempotent ⟨1, 16, 2 ^ 60, 2 ^ 27⟩ 12 (by decide) (by decide)⟩

/-- C9: the end-to-end scenario: construct a state, call `init_test_board`,
then `move_duck 35`; the result has `w_rooks = 1`, `w_king = 16`,
`b_king = 0x1000000000000000` and `duck = 0x0000000800000000`. -/
theorem end_to_end_scenario :
    (GameState.ctor.init_test_board).bind (fun g => g.move_duck 35) =
      some { w_rooks := 1, w_king := 16, b_king := 0x1000000000000000,
             duck := 0x0000000800000000 } := by
  rw [init_test_board_eq, Option.some_bind, move_duck_of_valid _ 35 (by decide) (by decide)]
  rfl

/-- C10: the shift of `move_duck` keeps all 64 bits: on every game state
`move_duck 63` returns `duck = 0x8000000000000000` and `move_duck 0` returns
`duck = 0x1`; at both squares the 64-bit shift result is the untruncated power
of two. -/
theorem move_duck_boundary_squares (g : GameState) :
    g.move_duck 63 = some { g with duck := 0x8000000000000000 } ∧
      g.move_duck 0 = some { g with duck := 0x1 } ∧
      shl1 63 = some (2 ^ 63) ∧ shl1 0 = some (2 ^ 0) := by
  refine ⟨?_, ?_, shl1_of_valid 63 (by decide) (by decide),
    shl1_of_valid 0 (by decide) (by decide)⟩
  · rw [move_duck_of_valid g 63 (by decide) (by decide)]; rfl
  · rw [move_duck_of_valid g 0 (by decide) (by decide)]; rfl

/-! ### Direct field access and totality -/

theorem move_duck_out_of_range (g : GameState) (s : Int) (h : s < 0 ∨ 63 < s) :
    g.move_duck s = none := by
  have hs : ¬ (0 ≤ s ∧ s < 64) := by omega
  simp [GameState.move_duck, set_bit, shl1, hs]

/-- C11: direct field access is raw and independent: for every game state,
every field `f` of the four and every value `v`, in particular every 64-bit
one, reading `f` after writing `v` to `f` gives exactly `v`, each of the other
three fields reads as before, and a 64-bit `v` written into a 64-bit state
leaves a 64-bit state. -/
theorem field_write_then_read (g : GameState) (f : Member) (v : Bitboard) :
    (g.write f v).read f = v ∧
      (∀ f1 : Member, f1 ≠ f → (g.write f v).read f1 = g.read f1) ∧
      (v < U64 → g.WF → (g.write f v).WF) := by
  refine ⟨?_, ?_, ?_⟩
  · cases f <;> rfl
  · intro f1 hne
    cases f <;> cases f1 <;> first | rfl | exact absurd rfl hne
  · intro hv hg
    obtain ⟨h1, h2, h3, h4⟩ := hg
    cases f
    · exact ⟨hv, h2, h3, h4⟩
    · exact ⟨h1, hv, h3, h4⟩
    · exact ⟨h1, h2, hv, h4⟩
    · exact ⟨h1, h2, h3, hv⟩

/-- C12: no operation fails on valid input: the constructor yields a 64-bit
state, `init_test_board` returns a state on every game state, its four shifts by
0, 4, 60 and 27 being defined, and for every square `s` with `0 ≤ s ≤ 63` the
shift by `s` is defined and `move_duck s` returns a state. -/
theorem operations_total_on_valid_input (g : GameState) (s : Int) (h0 : 0 ≤ s) (h63 : s ≤ 63) :
    GameState.ctor.WF ∧
      (∃ g1, g.init_test_board = some g1) ∧
      (shl1 0).isSome = true ∧ (shl1 4).isSome = true ∧
      (shl1 60).isSome = true ∧ (shl1 27).isSome = true ∧
      (shl1 s).isSome = true ∧ (∃ g2, g.move_duck s = some g2) := by
  refine ⟨by decide, ⟨_, init_test_board_eq g⟩, ?_, ?_, ?_, ?_, ?_,
    ⟨_, move_duck_of_valid g s h0 h63⟩⟩
  · rw [shl1_of_valid 0 (by decide) (by decide)]; rfl
  · rw [shl1_of_valid 4 (by decide) (by decide)]; rfl
  · rw [shl1_of_valid 60 (by decide) (by decide)]; rfl
  · rw [shl1_of_valid 27 (by decide) (by decide)]; rfl
  · rw [shl1_of_valid s h0 h63]; rfl

theorem operations_total_on_valid_input_witness :
    (0 : Int) ≤ 63 ∧ (63 : Int) ≤ 63 ∧
    (GameState.ctor.WF ∧
      (∃ g1, (GameState.mk 1 16 (2 ^ 60) (2 ^ 27)).init_test_board = some g1) ∧
      (shl1 0).isSome = true ∧ (shl1 4).isSome = true ∧
      (shl1 60).isSome = true ∧ (shl1 27).isSome = true ∧
      (shl1 63).isSome = true ∧
      (∃ g2, (GameState.mk 1 16 (2 ^ 60) (2 ^ 27)).move_duck 63 = some g2)) :=
  ⟨by decide, by decide,
    operations_total_on_valid_input ⟨1, 16, 2 ^ 60, 2 ^ 27⟩ 63 (by decide) (by decide)⟩

/-! ### How the two mutators compose -/

theorem two_pow_eq_or_27_iff (s : Nat) : 2 ^ s = 2 ^ s ||| 2 ^ 27 ↔ s = 27 := by
  constructor
  · intro h
    have hb : (2 ^ s).testBit 27 = true := by
      rw [h]; exact testBit_or_two_pow_self _ 27
    exact ((testBit_two_pow_iff s 27).1 hb).symm
  · intro h
    rw [h, Nat.or_self]

theorem two_pow_inj (s t : Nat) (h : 2 ^ s = 2 ^ t) : s = t := by
  have hb : (2 ^ t).testBit s = true := by
    rw [← h]; exact (testBit_two_pow_iff s s).2 rfl
  exact (testBit_two_pow_iff t s).1 hb

/-- C13: the two mutators do not commute on the duck field: for every game
state and every square `s` with `0 ≤ s ≤ 63`, `init_test_board` then
`move_duck s` leaves `duck = 2 ^ s`, while `move_duck s` then `init_test_board`
leaves `duck = 2 ^ s ||| 2 ^ 27`, which has two bits set when `s ≠ 27`; the two
duck values are equal exactly when `s = 27`. -/
theorem mutators_do_not_commute (g : GameState) (s : Int) (h0 : 0 ≤ s) (h63 : s ≤ 63) :
    ∃ a b, (g.init_test_board).bind (fun g1 => g1.move_duck s) = some a ∧
      (g.move_duck s).bind (fun g1 => g1.init_test_board) = some b ∧
      a.duck = 2 ^ s.toNat ∧ b.duck = 2 ^ s.toNat ||| 2 ^ 27 ∧
      (s ≠ 27 → popcount b.duck = 2) ∧ (a.duck = b.duck ↔ s = 27) := by
  have hlt : s.toNat < 64 := by omega
  refine ⟨⟨g.w_rooks ||| 2 ^ 0, g.w_king ||| 2 ^ 4, g.b_king ||| 2 ^ 60, 2 ^ s.toNat⟩,
    ⟨g.w_rooks ||| 2 ^ 0, g.w_king ||| 2 ^ 4, g.b_king ||| 2 ^ 60, 2 ^ s.toNat ||| 2 ^ 27⟩,
    ?_, ?_, rfl, rfl, ?_, ?_⟩
  · rw [init_test_board_eq, Option.some_bind, move_duck_of_valid _ s h0 h63]
  · rw [move_duck_of_valid g s h0 h63, Option.some_bind, init_test_board_eq]
  · intro hne
    exact popcount_two_pow_or_27_eq s.toNat hlt (by omega)
  · show 2 ^ s.toNat = 2 ^ s.toNat ||| 2 ^ 27 ↔ s = 27
    rw [two_pow_eq_or_27_iff]
    omega

theorem mutators_do_not_commute_witness :
    (0 : Int) ≤ 35 ∧ (35 : Int) ≤ 63 ∧
    ∃ a b, ((GameState.mk 1 16 (2 ^ 60) 0).init_test_board).bind
          (fun g1 => g1.move_duck 35) = some a ∧
      ((GameState.mk 1 16 (2 ^ 60) 0).move_duck 35).bind
          (fun g1 => g1.init_test_board) = some b ∧
      a.duck = 2 ^ (35 : Int).toNat ∧ b.duck = 2 ^ (35 : Int).toNat ||| 2 ^ 27 ∧
      ((35 : Int) ≠ 27 → popcount b.duck = 2) ∧ (a.duck = b.duck ↔ (35 : Int) = 27) :=
  ⟨by decide, by decide,
    mutators_do_not_commute ⟨1, 16, 2 ^ 60, 0⟩ 35 (by decide) (by decide)⟩

/-- C14: `init_test_board` is idempotent: on every game state it returns a
state on which a second `init_test_board` returns that same state, all four
fields. -/
theorem init_test_board_idempotent (g : GameState) :
    ∃ g1, g.init_test_board = some g1 ∧ g1.init_test_board = some g1 ∧
      (g.init_test_board).bind (fun g2 => g2.init_test_board) = g.init_test_board := by
  have hfix : ∀ x k : Nat, (x ||| 2 ^ k) ||| 2 ^ k = x ||| 2 ^ k := by
    intro x k
    rw [Nat.lor_assoc, Nat.or_self]
  have h2 : (GameState.mk (g.w_rooks ||| 2 ^ 0) (g.w_king ||| 2 ^ 4) (g.b_king ||| 2 ^ 60)
        (g.duck ||| 2 ^ 27)).init_test_board =
      some (GameState.mk (g.w_rooks ||| 2 ^ 0) (g.w_king ||| 2 ^ 4) (g.b_king ||| 2 ^ 60)
        (g.duck ||| 2 ^ 27)) := by
    rw [init_test_board_eq]
    simp only [hfix]
  refine ⟨_, init_test_board_eq g, h2, ?_⟩
  rw [init_test_board_eq g, Option.some_bind]
  exact h2

/-- C15: the last duck move wins: for every game state and all squares `s`,
`t` in `[0, 63]`, `move_duck s` then `move_duck t` returns the same state as
`move_duck t` alone, and when `s ≠ t` bit `s` is clear in its duck bitboard. -/
theorem last_move_duck_wins (g : GameState) (s t : Int)
    (hs0 : 0 ≤ s) (hs63 : s ≤ 63) (ht0 : 0 ≤ t) (ht63 : t ≤ 63) :
    ∃ g1, g.move_duck t = some g1 ∧
      (g.move_duck s).bind (fun g2 => g2.move_duck t) = some g1 ∧
      (s ≠ t → g1.duck.testBit s.toNat = false) := by
  refine ⟨_, move_duck_of_valid g t ht0 ht63, ?_, ?_⟩
  · rw [move_duck_of_valid g s hs0 hs63, Option.some_bind, move_duck_of_valid _ t ht0 ht63]
  · intro hne
    show (2 ^ t.toNat).testBit s.toNat = false
    rw [Nat.testBit_two_pow]
    have : t.toNat ≠ s.toNat := by omega
    simp [this]

theorem last_move_duck_wins_witness :
    (0 : Int) ≤ 5 ∧ (5 : Int) ≤ 63 ∧ (0 : Int) ≤ 40 ∧ (40 : Int) ≤ 63 ∧
    ∃ g1, (GameState.mk 1 16 (2 ^ 60) (2 ^ 27)).move_duck 40 = some g1 ∧
      ((GameState.mk 1 16 (2 ^ 60) (2 ^ 27)).move_duck 5).bind
          (fun g2 => g2.move_duck 40) = some g1 ∧
      ((5 : Int) ≠ 40 → g1.duck.testBit (5 : Int).toNat = false) :=
  ⟨by decide, by decide, by decide, by decide,
    last_move_duck_wins ⟨1, 16, 2 ^ 60, 2 ^ 27⟩ 5 40
      (by decide) (by decide) (by decide) (by decide)⟩

/-- C16: `move_duck` is injective on valid squares: for all game states `g`,
`h` and squares `s`, `t` in `[0, 63]`, both calls return a state, and the two
duck bitboards are equal only if `s = t`. -/
theorem move_duck_injective (g h : GameState) (s t : Int)
    (hs0 : 0 ≤ s) (hs63 : s ≤ 63) (ht0 : 0 ≤ t) (ht63 : t ≤ 63) :
    ∃ g1 h1, g.move_duck s = some g1 ∧ h.move_duck t = some h1 ∧
      (g1.duck = h1.duck → s = t) := by
  refine ⟨_, _, move_duck_of_valid g s hs0 hs63, move_duck_of_valid h t ht0 ht63, ?_⟩
  intro heq
  have hnat : s.toNat = t.toNat := two_pow_inj _ _ heq
  omega

theorem move_duck_injective_witness :
    (0 : Int) ≤ 12 ∧ (12 : Int) ≤ 63 ∧ (0 : Int) ≤ 12 ∧ (12 : Int) ≤ 63 ∧
    ∃ g1 h1, (GameState.mk 1 16 (2 ^ 60) 7).move_duck 12 = some g1 ∧
      (GameState.mk 0 0 0 (2 ^ 27)).move_duck 12 = some h1 ∧
      (g1.duck = h1.duck → (12 : Int) = 12) :=
  ⟨by decide, by decide, by decide, by decide,
    move_duck_injective ⟨1, 16, 2 ^ 60, 7⟩ ⟨0, 0, 0, 2 ^ 27⟩ 12 12
      (by decide) (by decide) (by decide) (by decide)⟩

/-! ### The three bit macros together -/

theorem get_bit_of_valid (bb : Bitboard) (s : Int) (h0 : 0 ≤ s) (h63 : s ≤ 63) :
    get_bit bb s = some (bb &&& 2 ^ s.toNat) := by
  simp [get_bit, shl1_of_valid s h0 h63]

theorem pop_bit_of_valid (bb : Bitboard) (s : Int) (h0 : 0 ≤ s) (h63 : s ≤ 63) :
    pop_bit bb s = some (bb &&& (U64 - 1 - 2 ^ s.toNat)) := by
  simp [pop_bit, shl1_of_valid s h0 h63]

/-- The 64-bit complement of a single bit has every bit below 64 set except
that one. -/
theorem testBit_complement_two_pow (k i : Nat) (hk : k < 64) :
    (U64 - 1 - 2 ^ k).testBit i = (decide (i < 64) && !decide (k = i)) := by
  have hpow : 2 ^ k < 2 ^ 64 := Nat.pow_lt_pow_right (by norm_num) hk
  have hrw : U64 - 1 - 2 ^ k = 2 ^ 64 - (2 ^ k + 1) := by
    unfold U64; omega
  rw [hrw, Nat.testBit_two_pow_sub_succ hpow, Nat.testBit_two_pow]

theorem testBit_of_lt_U64 (bb i : Nat) (hbb : bb < U64) (hi : 64 ≤ i) :
    bb.testBit i = false := by
  apply Nat.testBit_lt_two_pow
  calc bb < 2 ^ 64 := hbb
    _ ≤ 2 ^ i := Nat.pow_le_pow_right (by norm_num) hi

/-- Clearing bit `k` of a 64-bit value: bit `k` reads clear, the others as
before. -/
theorem testBit_and_complement (bb k i : Nat) (hbb : bb < U64) (hk : k < 64) :
    (bb &&& (U64 - 1 - 2 ^ k)).testBit i = (bb.testBit i && !decide (k = i)) := by
  rw [Nat.testBit_and, testBit_complement_two_pow k i hk]
  by_cases hi : i < 64
  · simp [hi]
  · rw [testBit_of_lt_U64 bb i hbb (by omega)]
    simp

/-- C17: the three bit macros agree with one another: for every 64-bit
bitboard `bb` and square `sq` with `0 ≤ sq ≤ 63`, all three are defined;
`get_bit` is non-zero on the result of `set_bit` and zero on the result of
`pop_bit`; `set_bit` and `pop_bit` leave every bit other than bit `sq` as it
was; and `pop_bit` on the result of `set_bit` gives the result of `pop_bit` on
`bb`, which is `bb` with bit `sq` clear. -/
theorem bit_macros_consistent (bb : Bitboard) (sq : Int)
    (hbb : bb < U64) (h0 : 0 ≤ sq) (h63 : sq ≤ 63) :
    ∃ a p v, set_bit bb sq = some a ∧ pop_bit bb sq = some p ∧
      get_bit a sq = some v ∧ v ≠ 0 ∧ get_bit p sq = some 0 ∧
      (∀ i : Nat, i ≠ sq.toNat → a.testBit i = bb.testBit i) ∧
      (∀ i : Nat, i ≠ sq.toNat → p.testBit i = bb.testBit i) ∧
      pop_bit a sq = some p ∧
      a.testBit sq.toNat = true ∧ p.testBit sq.toNat = false ∧
      a < U64 ∧ p < U64 := by
  have hk : sq.toNat < 64 := by omega
  have hpow : 2 ^ sq.toNat < U64 := Nat.pow_lt_pow_right (by norm_num) hk
  have hget : (bb ||| 2 ^ sq.toNat) &&& 2 ^ sq.toNat = 2 ^ sq.toNat := by
    apply Nat.eq_of_testBit_eq
    intro i
    rw [Nat.testBit_and, Nat.testBit_or]
    cases bb.testBit i <;> simp
  have hzero : (bb &&& (U64 - 1 - 2 ^ sq.toNat)) &&& 2 ^ sq.toNat = 0 := by
    apply Nat.eq_of_testBit_eq
    intro i
    rw [Nat.testBit_and, testBit_and_complement bb _ i hbb hk, Nat.testBit_two_pow]
    by_cases hi : sq.toNat = i <;> simp [hi]
  have hpopset : (bb ||| 2 ^ sq.toNat) &&& (U64 - 1 - 2 ^ sq.toNat) =
      bb &&& (U64 - 1 - 2 ^ sq.toNat) := by
    apply Nat.eq_of_testBit_eq
    intro i
    rw [testBit_and_complement _ _ i (or_two_pow_lt bb _ hbb hk) hk,
      testBit_and_complement bb _ i hbb hk, Nat.testBit_or, Nat.testBit_two_pow]
    by_cases hi : sq.toNat = i <;> simp [hi]
  refine ⟨bb ||| 2 ^ sq.toNat, bb &&& (U64 - 1 - 2 ^ sq.toNat), 2 ^ sq.toNat,
    set_bit_of_valid bb sq h0 h63, pop_bit_of_valid bb sq h0 h63, ?_, ?_, ?_, ?_, ?_, ?_,
    testBit_or_two_pow_self bb _, ?_, or_two_pow_lt bb _ hbb hk, ?_⟩
  · rw [get_bit_of_valid _ sq h0 h63, hget]
  · exact Nat.pos_iff_ne_zero.1 (Nat.two_pow_pos _)
  · rw [get_bit_of_valid _ sq h0 h63, hzero]
  · intro i hi
    rw [Nat.testBit_or, Nat.testBit_two_pow]
    have : ¬ sq.toNat = i := fun h => hi h.symm
    simp [this]
  · intro i hi
    rw [testBit_and_complement bb _ i hbb hk]
    have : ¬ sq.toNat = i := fun h => hi h.symm
    simp [this]
  · rw [pop_bit_of_valid _ sq h0 h63, hpopset]
  · rw [testBit_and_complement bb _ _ hbb hk]
    simp
  · exact lt_of_le_of_lt Nat.and_le_left hbb

theorem bit_macros_consistent_witness :
    (0x8100000000000081 : Bitboard) < U64 ∧ (0 : Int) ≤ 63 ∧ (63 : Int) ≤ 63 ∧
    ∃ a p v, set_bit 0x8100000000000081 63 = some a ∧
      pop_bit 0x8100000000000081 63 = some p ∧
      get_bit a 63 = some v ∧ v ≠ 0 ∧ get_bit p 63 = some 0 ∧
      (∀ i : Nat, i ≠ (63 : Int).toNat →
        a.testBit i = (0x8100000000000081 : Bitboard).testBit i) ∧
      (∀ i : Nat, i ≠ (63 : Int).toNat →
        p.testBit i = (0x8100000000000081 : Bitboard).testBit i) ∧
      pop_bit a 63 = some p ∧
      a.testBit (63 : Int).toNat = true ∧ p.testBit (63 : Int).toNat = false ∧
      a < U64 ∧ p < U64 :=
  ⟨by decide, by decide, by decide,
    bit_macros_consistent 0x8100000000000081 63 (by decide) (by decide) (by decide)⟩
